import Mathlib

/-!
# Formal model of `decode_trace.py`

This file gives a shallow embedding, in Lean 4, of the core of the
`duka-control` trace decoder (`src/decode_trace.py`) and proves the
specification claims about it.

Modelling conventions:
* a logic level is a `Bool` (`false` = `'0'`, `true` = `'1'`); a bitvector
  (Python string of `'0'`/`'1'`) is a `List Bool`;
* timestamps and durations (Python floats) are exact rationals `ℚ`;
* Python's `round` (round-half-to-even) is `pyRound`;
* Python exceptions become `Except` values; the two ways the script can
  crash outside its `try` block (an uncaught `IndexError` on an empty
  trace, an uncaught `NameError` on the unbound `frame` variable in the
  `except` handler) are modelled by the `Crash` type.
-/

/-- Length of the leading run of `true` bits (consecutive `'1'`s). -/
def countOnes : List Bool → Nat
  | [] => 0
  | false :: _ => 0
  | true :: l => countOnes l + 1

/-- `l` contains no run of `m` or more consecutive `true` bits:
every position starts a `true`-run of length `< m`. -/
def noLongRun (m : Nat) (l : List Bool) : Prop :=
  ∀ i, i < l.length → countOnes (l.drop i) < m

instance (m : Nat) (l : List Bool) : Decidable (noLongRun m l) := by
  unfold noLongRun; infer_instance

/-- The two states of the frame-extraction scan in `extract_and_verify`
(`src/decode_trace.py` lines 72-89): the outer loop looking for a `'0'`
(`scanning`) and the inner loop collecting a candidate frame
(`frameOpen start acc run`, where `acc` holds the bits collected so far
excluding the current run of consecutive `'1'`s, whose length is `run`). -/
inductive ScanState where
  | scanning
  | frameOpen (start : Nat) (acc : List Bool) (run : Nat)

/-- One left-to-right pass of the extraction state machine of
`extract_and_verify` (lines 72-89 of the source), position `i` tracking
the index into the original bitvector.  A frame closes when a run of
consecutive `'1'`s of length `≥ min_idle` ends (at a `'0'` or at the end
of the input); the recorded slice is `(start, end)` with
`end = run_start = start + acc.length`. -/
def scanLoop (m : Nat) : List Bool → Nat → ScanState → List (List Bool × Nat × Nat)
  | [], _, .scanning => []
  | [], _, .frameOpen st acc run =>
      if 1 ≤ run ∧ m ≤ run then [(acc, st, st + acc.length)] else []
  | true :: l, i, .scanning => scanLoop m l (i + 1) .scanning
  | false :: l, i, .scanning => scanLoop m l (i + 1) (.frameOpen i [false] 0)
  | true :: l, i, .frameOpen st acc run => scanLoop m l (i + 1) (.frameOpen st acc (run + 1))
  | false :: l, i, .frameOpen st acc run =>
      if 1 ≤ run ∧ m ≤ run then
        (acc, st, st + acc.length) :: scanLoop m l (i + 1) (.frameOpen i [false] 0)
      else
        scanLoop m l (i + 1) (.frameOpen st (acc ++ List.replicate run true ++ [false]) 0)

/-- All `(frame, start, end)` triples found by the scan of
`extract_and_verify`, in order. -/
def extractScan (m : Nat) (bitvec : List Bool) : List (List Bool × Nat × Nat) :=
  scanLoop m bitvec 0 .scanning

/-- The `frames` list accumulated by `extract_and_verify`. -/
def framesOf (m : Nat) (bitvec : List Bool) : List (List Bool) :=
  (extractScan m bitvec).map (fun x => x.1)

/-- The `positions` list accumulated by `extract_and_verify`. -/
def positionsOf (m : Nat) (bitvec : List Bool) : List (Nat × Nat) :=
  (extractScan m bitvec).map (fun x => (x.2.1, x.2.2))

/-- One line of the output of `debug_print_frame_and_bitvec`
(the Diagnostic Aligner, lines 110-123 of the source): the slice
`bitvec[start : start + len(frame)]` together with its match marker
(`true` = `OK`, `false` = `DIFF`). -/
def alignerLines (frame : List Bool) (bitvec : List Bool)
    (positions : List (Nat × Nat)) : List (List Bool × Bool) :=
  positions.map (fun pos =>
    ((bitvec.drop pos.1).take frame.length,
     decide ((bitvec.drop pos.1).take frame.length = frame)))

/-- The error values raised by the per-trace pipeline (all `ValueError`s
in the source).  `unreliable` carries the diagnostic-aligner output that
`extract_and_verify` prints before raising (line 104). -/
inductive DecodeError where
  | noFrames
  | unreliable (errors : Nat) (diag : List (List Bool × Bool))
  | frameLength ( short : Bool) (len : Nat)
deriving DecidableEq, Repr

/-- `extract_and_verify` (lines 66-107 of the source): scan the bitvector
for idle-delimited frames, fail if none were found, count the frames that
differ from the first one, and on any mismatch run the diagnostic aligner
and fail; otherwise return the common frame, the occurrence count
`len(frames) - errors`, and the positions. -/
def extract_and_verify (bitvec : List Bool) (min_idle : Nat) :
    Except DecodeError (List Bool × Nat × List (Nat × Nat)) :=
  match framesOf min_idle bitvec with
  | [] => .error .noFrames
  | first :: rest =>
      let errs := (rest.filter (fun f => decide (f ≠ first))).length
      if 0 < errs then
        .error (.unreliable errs (alignerLines first bitvec (positionsOf min_idle bitvec)))
      else
        .ok (first, (first :: rest).length - errs, positionsOf min_idle bitvec)

/-- The mismatch count carried by an `unreliable` error, if any. -/
def unreliableCount {α : Type} : Except DecodeError α → Option Nat
  | .error (.unreliable e _) => some e
  | _ => none

/-- The caller-level frame-length post-check of `main`
(lines 151-153 of the source): a frame is accepted only with length in
`[30, 34]`; otherwise the raised error is classified `short` exactly when
the length is `< 3`. -/
def lengthCheck (frame : List Bool) : Except DecodeError Unit :=
  if 30 > frame.length || frame.length > 34 then
    .error (.frameLength (decide (frame.length < 3)) frame.length)
  else
    .ok ()

/-- Minimum of a list of rationals, as Python's `min` computes it
(`0` on the empty list, on which Python would raise instead; all uses
below are guarded by non-emptiness). -/
def listMinQ : List ℚ → ℚ
  | [] => 0
  | [d] => d
  | d :: rest => min d (listMinQ rest)

/-- Quantum estimation of `build_bitvector` (lines 41-42 of the source):
the minimum duration among level-0 runs, falling back to the minimum over
all runs when there is no level-0 run. -/
def estimateT0 (runs : List (Bool × ℚ)) : ℚ :=
  let low := (runs.filter (fun r => r.1 == false)).map (fun r => r.2)
  if low.isEmpty then listMinQ (runs.map (fun r => r.2)) else listMinQ low

/-- The idle-trim of `build_bitvector` (lines 46-52 of the source):
drop every run up to and including the first one of duration `≥ 20·T0`;
if no run qualifies, keep the list unchanged. -/
def idleTrim (T0 : ℚ) (runs : List (Bool × ℚ)) : List (Bool × ℚ) :=
  match runs.findIdx? (fun r => decide (20 * T0 ≤ r.2)) with
  | some i => runs.drop (i + 1)
  | none => runs

/-- Python's `round` on an exact rational: nearest integer, ties to even. -/
def pyRound (q : ℚ) : ℤ :=
  if q - ⌊q⌋ < 1 / 2 then ⌊q⌋
  else if 1 / 2 < q - ⌊q⌋ then ⌊q⌋ + 1
  else if ⌊q⌋ % 2 = 0 then ⌊q⌋ else ⌊q⌋ + 1

/-- `build_bitvector` (lines 39-63 of the source): estimate the quantum,
trim the leading idle, then expand each remaining run `(val, dur)` into
`round(dur / T0)` copies of its level. -/
def build_bitvector (runs : List (Bool × ℚ)) : List Bool × ℚ :=
  let T0 := estimateT0 runs
  let runs2 := idleTrim T0 runs
  (((runs2.map (fun r => List.replicate (pyRound (r.2 / T0)).toNat r.1))).flatten, T0)

/-- The sum `sum(round(duration / T0) for each run)` of the spec's
length invariant. -/
def expansionSum (T0 : ℚ) (runs : List (Bool × ℚ)) : Nat :=
  (runs.map (fun r => (pyRound (r.2 / T0)).toNat)).sum

/-- The transition-collecting loop of `read_trace` (lines 20-23 of the
source): a sample is appended exactly when its level differs from the
level of the most recently appended transition (`last`). -/
def transAux (last : Bool) : List (ℚ × Bool) → List (ℚ × Bool)
  | [] => []
  | x :: rest => if x.2 ≠ last then x :: transAux x.2 rest else transAux last rest

/-- The transition list of `read_trace`: the first sample unconditionally,
then every sample whose level differs from the previous transition's. -/
def transitionsOf : List (ℚ × Bool) → List (ℚ × Bool)
  | [] => []
  | s :: rest => s :: transAux s.2 rest

/-- The run-length loop of `read_trace` (lines 26-31 of the source):
each adjacent pair of transitions yields a run, and the final transition
yields a closing run lasting until the trace's final timestamp `tEnd`. -/
def runsOfTransitions (tEnd : ℚ) : List (ℚ × Bool) → List (Bool × ℚ)
  | [] => []
  | [(t, v)] => [(v, tEnd - t)]
  | (t, v) :: (t', v') :: rest => (v, t' - t) :: runsOfTransitions tEnd ((t', v') :: rest)

/-- The run list computed by `read_trace` from an ordered sample list
(`times[-1]` is the last sample's timestamp). -/
def read_trace : List (ℚ × Bool) → List (Bool × ℚ)
  | [] => []
  | s :: rest => runsOfTransitions ((s :: rest).getLastD s).1 (transitionsOf (s :: rest))

/-- The two ways the script crashes outside its `try` block:
`indexError` is Python's `IndexError` from `times[0]` on an empty trace
(line 20), `nameError` is Python's `NameError` from reading the unbound
variable `frame` in the `except` handler (line 156). -/
inductive Crash where
  | indexError
  | nameError
deriving DecidableEq, Repr

/-- The per-trace loop of `main` (lines 143-157 of the source), with the
traces given as sample lists and identified by their index.
`read_trace` and `build_bitvector` run outside the `try` block; the
`except ValueError` handler appends `(trace, frame, e)` where `frame` is
whatever the variable currently holds — unbound (`none`) until some
earlier `extract_and_verify` call has succeeded. -/
def mainLoop (m : Nat) : List (List (ℚ × Bool)) → Nat → Option (List Bool) →
    List (Nat × List Bool × DecodeError) →
    Except Crash (List (Nat × List Bool × DecodeError))
  | [], _, _, errs => .ok errs
  | [] :: _, _, _, _ => .error .indexError
  | (s₀ :: srest) :: rest, idx, frameVar, errs =>
      match extract_and_verify (build_bitvector (read_trace (s₀ :: srest))).1 m with
      | .error e =>
          match frameVar with
          | none => .error .nameError
          | some fr => mainLoop m rest (idx + 1) (some fr) (errs ++ [(idx, fr, e)])
      | .ok (frame, _, _) =>
          match lengthCheck frame with
          | .error e => mainLoop m rest (idx + 1) (some frame) (errs ++ [(idx, frame, e)])
          | .ok _ => mainLoop m rest (idx + 1) (some frame) errs

/-- A synthetic trace: each block of payload bits followed by its idle
separator (a run of `'1'`s of the given length). -/
def tileBlocks : List (List Bool × Nat) → List Bool
  | [] => []
  | (b, s) :: rest => b ++ List.replicate s true ++ tileBlocks rest

/-- A payload block the extractor reproduces exactly: starts with `'0'`,
ends with `'0'`, and contains no internal idle run. -/
def goodBlock (m : Nat) (b : List Bool) : Prop :=
  b.head? = some false ∧ b.getLast? = some false ∧ noLongRun m b

instance (m : Nat) (b : List Bool) : Decidable (goodBlock m b) := by
  unfold goodBlock; infer_instance

/-- Invariant of the collected bits of an open or extracted frame. -/
def goodAcc (m : Nat) (acc : List Bool) : Prop :=
  acc.head? = some false ∧ acc.getLast? = some false ∧ noLongRun m acc

/-- Invariant of a scanner state. -/
def stateOK (m : Nat) : ScanState → Prop
  | .scanning => True
  | .frameOpen _ acc _ => goodAcc m acc

/-- The concrete scenario of spec §8: runs
`[(0, 1 ms), (1, 0.5 ms), (0, 1 ms), (1, 25 ms)]` repeated 6 times
(durations in milliseconds). -/
def c2runs : List (Bool × ℚ) :=
  (List.replicate 6 [(false, (1 : ℚ)), (true, 1 / 2), (false, 1), (true, 25)]).flatten

/-- A well-formed 30-bit pattern used as a concrete witness input:
`"01" × 14 ++ "00"`. -/
def p30 : List Bool :=
  (List.replicate 14 [false, true]).flatten ++ [false, false]

instance {ε α : Type} [DecidableEq ε] [DecidableEq α] : DecidableEq (Except ε α)
  | .error e, .error e' =>
      match decEq e e' with
      | isTrue h => isTrue (by rw [h])
      | isFalse h => isFalse (by intro hc; cases hc; exact h rfl)
  | .ok a, .ok a' =>
      match decEq a a' with
      | isTrue h => isTrue (by rw [h])
      | isFalse h => isFalse (by intro hc; cases hc; exact h rfl)
  | .error _, .ok _ => isFalse (by intro hc; cases hc)
  | .ok _, .error _ => isFalse (by intro hc; cases hc)

set_option maxRecDepth 40000

/-! ## Minimum lemmas for the quantum estimator -/

theorem listMinQ_mem : ∀ l : List ℚ, l ≠ [] → listMinQ l ∈ l := by
  intro l
  induction l with
  | nil => intro h; exact absurd rfl h
  | cons d rest ih =>
      intro _
      cases rest with
      | nil => simp [listMinQ]
      | cons e rest' =>
          simp only [listMinQ]
          rcases le_total d (listMinQ (e :: rest')) with h | h
          · rw [min_eq_left h]; exact List.mem_cons_self ..
          · rw [min_eq_right h]
            exact List.mem_cons_of_mem _ (ih (by simp))

theorem listMinQ_le : ∀ (l : List ℚ) (x : ℚ), x ∈ l → listMinQ l ≤ x := by
  intro l
  induction l with
  | nil => intro x hx; simp at hx
  | cons d rest ih =>
      intro x hx
      cases rest with
      | nil =>
          simp at hx
          simp [listMinQ, hx]
      | cons e rest' =>
          simp only [listMinQ]
          rcases List.mem_cons.1 hx with h | h
          · rw [h]; exact min_le_left ..
          · exact le_trans (min_le_right ..) (ih x h)

/-- C6: For every non-empty Run list, the estimated quantum `T0` equals the
minimum duration among Runs whose level is 0, and, when no level-0 Run
exists, equals the minimum duration among all Runs. -/
theorem quantum_is_min (runs : List (Bool × ℚ)) (h : runs ≠ []) :
    ((∃ r ∈ runs, r.1 = false) →
        (∃ r ∈ runs, r.1 = false ∧ r.2 = estimateT0 runs) ∧
        ∀ r ∈ runs, r.1 = false → estimateT0 runs ≤ r.2) ∧
    ((∀ r ∈ runs, r.1 = true) →
        (∃ r ∈ runs, r.2 = estimateT0 runs) ∧
        ∀ r ∈ runs, estimateT0 runs ≤ r.2) := by
  constructor
  · intro ⟨r0, hr0, hr0f⟩
    have hfil : r0 ∈ runs.filter (fun r => r.1 == false) :=
      List.mem_filter.2 ⟨hr0, by simp [hr0f]⟩
    have hne : (runs.filter (fun r => r.1 == false)).map (fun r => r.2) ≠ [] := by
      simp only [ne_eq, List.map_eq_nil_iff]
      intro hc
      rw [hc] at hfil
      simp at hfil
    have hT0 : estimateT0 runs
        = listMinQ ((runs.filter (fun r => r.1 == false)).map (fun r => r.2)) := by
      unfold estimateT0
      rw [if_neg (by simpa [List.isEmpty_iff] using hne)]
    constructor
    · have hmem := listMinQ_mem _ hne
      rw [← hT0] at hmem
      obtain ⟨r, hrf, hr2⟩ := List.mem_map.1 hmem
      have := List.mem_filter.1 hrf
      exact ⟨r, this.1, by simpa using this.2, hr2.symm ▸ rfl⟩
    · intro r hr hrf
      rw [hT0]
      exact listMinQ_le _ _ (List.mem_map.2 ⟨r, List.mem_filter.2 ⟨hr, by simp [hrf]⟩, rfl⟩)
  · intro hall
    have hfil : runs.filter (fun r => r.1 == false) = [] := by
      rw [List.filter_eq_nil_iff]
      intro r hr
      simp [hall r hr]
    have hT0 : estimateT0 runs = listMinQ (runs.map (fun r => r.2)) := by
      unfold estimateT0
      rw [hfil]
      simp
    have hne : runs.map (fun r => r.2) ≠ [] := by
      simpa [List.map_eq_nil_iff] using h
    constructor
    · have hmem := listMinQ_mem _ hne
      obtain ⟨r, hrr, hr2⟩ := List.mem_map.1 hmem
      exact ⟨r, hrr, by rw [hT0, hr2]⟩
    · intro r hr
      rw [hT0]
      exact listMinQ_le _ _ (List.mem_map.2 ⟨r, hr, rfl⟩)

/-- Witness for C6 at the concrete run list `[(0, 2 ms), (1, 1 ms)]`. -/
theorem quantum_is_min_witness :
    ([(false, (2 : ℚ)), (true, 1)] ≠ []) ∧
    (((∃ r ∈ [(false, (2 : ℚ)), (true, 1)], r.1 = false) →
        (∃ r ∈ [(false, (2 : ℚ)), (true, 1)], r.1 = false
            ∧ r.2 = estimateT0 [(false, (2 : ℚ)), (true, 1)]) ∧
        ∀ r ∈ [(false, (2 : ℚ)), (true, 1)], r.1 = false →
            estimateT0 [(false, (2 : ℚ)), (true, 1)] ≤ r.2) ∧
    ((∀ r ∈ [(false, (2 : ℚ)), (true, 1)], r.1 = true) →
        (∃ r ∈ [(false, (2 : ℚ)), (true, 1)], r.2 = estimateT0 [(false, (2 : ℚ)), (true, 1)]) ∧
        ∀ r ∈ [(false, (2 : ℚ)), (true, 1)], estimateT0 [(false, (2 : ℚ)), (true, 1)] ≤ r.2)) :=
  ⟨by simp, quantum_is_min [(false, (2 : ℚ)), (true, 1)] (by simp)⟩

/-! ## Run-length builder lemmas -/

/-- C8: the Run durations telescope to `tEnd` minus the first Transition's
timestamp, and a single Transition yields exactly one Run (in general,
`n` Transitions yield `n` Runs). -/
theorem run_durations_sum (tEnd t : ℚ) (v : Bool) (ts : List (ℚ × Bool)) :
    ((runsOfTransitions tEnd ((t, v) :: ts)).map (fun r => r.2)).sum = tEnd - t ∧
    (runsOfTransitions tEnd ((t, v) :: ts)).length = ts.length + 1 := by
  induction ts generalizing t v with
  | nil => simp [runsOfTransitions]
  | cons x ts' ih =>
      obtain ⟨t', v'⟩ := x
      have h := ih t' v'
      constructor
      · simp only [runsOfTransitions, List.map_cons, List.sum_cons, h.1]
        ring
      · simp only [runsOfTransitions, List.length_cons, h.2]

/-! ## Alternation of runs -/

theorem transAux_chain : ∀ (l : List (ℚ × Bool)) (last : Bool),
    List.Chain' (fun a b => a.2 ≠ b.2) (transAux last l) ∧
    (∀ x ∈ (transAux last l).head?, x.2 ≠ last) := by
  intro l
  induction l with
  | nil => intro last; simp [transAux]
  | cons x rest ih =>
      intro last
      by_cases hx : x.2 = last
      · simpa [transAux, hx] using ih last
      · have hx' : x.2 ≠ last := hx
        simp only [transAux, if_pos hx']
        refine ⟨List.chain'_cons'.2 ⟨?_, (ih x.2).1⟩, ?_⟩
        · intro y hy
          exact fun hc => (ih x.2).2 y hy hc.symm
        · intro y hy
          simp at hy
          rw [← hy]
          exact hx'

theorem runs_map_fst (tEnd : ℚ) : ∀ ts : List (ℚ × Bool),
    (runsOfTransitions tEnd ts).map (fun r => r.1) = ts.map (fun x => x.2) := by
  intro ts
  induction ts with
  | nil => simp [runsOfTransitions]
  | cons x ts' ih =>
      obtain ⟨t, v⟩ := x
      cases ts' with
      | nil => simp [runsOfTransitions]
      | cons y ts'' =>
          obtain ⟨t', v'⟩ := y
          simpa [runsOfTransitions] using ih

/-- C9: the Run list produced by `read_trace` has alternating levels, and
this comes from the Transition list itself (adjacent Transitions always
carry different levels), not from any deduplication of Runs. -/
theorem runs_alternate (samples : List (ℚ × Bool)) :
    List.Chain' (fun a b => a.1 ≠ b.1) (read_trace samples) ∧
    List.Chain' (fun a b => a.2 ≠ b.2) (transitionsOf samples) := by
  cases samples with
  | nil => simp [read_trace, transitionsOf]
  | cons s rest =>
      have hchainT : List.Chain' (fun a b => a.2 ≠ b.2) (transitionsOf (s :: rest)) := by
        simp only [transitionsOf]
        refine List.chain'_cons'.2 ⟨?_, (transAux_chain rest s.2).1⟩
        intro y hy
        exact fun hc => (transAux_chain rest s.2).2 y hy hc.symm
      refine ⟨?_, hchainT⟩
      have hmap : (read_trace (s :: rest)).map (fun r => r.1)
          = (transitionsOf (s :: rest)).map (fun x => x.2) := by
        simp only [read_trace]
        exact runs_map_fst _ _
      have h1 : List.Chain' Ne ((transitionsOf (s :: rest)).map (fun x => x.2)) :=
        (List.chain'_map _).2 hchainT
      rw [← hmap] at h1
      exact (List.chain'_map _).1 h1

/-! ## The frame-length post-check -/

/-- C3: for every accepted frame of length outside `[30, 34]` the
post-check fails, classified `short` exactly when the length is `< 3`
(and `long` otherwise); a frame with length in `[30, 34]` passes. -/
theorem length_postcheck (frame : List Bool) :
    (frame.length < 30 ∨ 34 < frame.length →
        lengthCheck frame
          = .error (.frameLength (decide (frame.length < 3)) frame.length)) ∧
    (30 ≤ frame.length → frame.length ≤ 34 → lengthCheck frame = .ok ()) := by
  constructor
  · intro h
    have hc : (30 > frame.length || frame.length > 34) = true := by
      simp only [Bool.or_eq_true, decide_eq_true_eq]
      omega
    simp [lengthCheck, hc]
  · intro h1 h2
    have hc : (30 > frame.length || frame.length > 34) = false := by
      simp only [Bool.or_eq_false_iff, decide_eq_false_iff_not]
      omega
    simp [lengthCheck, hc]

/-- Witness for C3 at a concrete 2-bit frame: the check fails as `short`. -/
theorem length_postcheck_witness :
    ((List.replicate 2 false).length < 30 ∨ 34 < (List.replicate 2 false).length) ∧
    lengthCheck (List.replicate 2 false) = .error (.frameLength true 2) :=
  ⟨Or.inl (by decide), (length_postcheck (List.replicate 2 false)).1 (Or.inl (by decide))⟩

/-! ## Bitvector length -/

/-- C1x: the claimed equality `len(bitvector) = sum(round(dur/T0))` over the
whole input Run list fails on a Run list that triggers the idle-trim:
for `[(0, 1), (1, 20)]` the builder trims everything and returns an empty
bitvector, while the sum over each Run is `21`. -/
theorem bitvector_length_counterexample :
    (build_bitvector [(false, (1 : ℚ)), (true, 20)]).1.length = 0 ∧
    expansionSum (estimateT0 [(false, (1 : ℚ)), (true, 20)])
        [(false, (1 : ℚ)), (true, 20)] = 21 ∧
    (build_bitvector [(false, (1 : ℚ)), (true, 20)]).1.length
      ≠ expansionSum (estimateT0 [(false, (1 : ℚ)), (true, 20)])
          [(false, (1 : ℚ)), (true, 20)] := by
  have h1 : (build_bitvector [(false, (1 : ℚ)), (true, 20)]).1.length = 0 := by
    with_unfolding_all rfl
  have h2 : expansionSum (estimateT0 [(false, (1 : ℚ)), (true, 20)])
      [(false, (1 : ℚ)), (true, 20)] = 21 := by
    with_unfolding_all rfl
  refine ⟨h1, h2, ?_⟩
  rw [h1, h2]
  omega

/-- C7 (amended): the Bitvector's length equals the sum of
`round(duration/T0)` over each Run remaining after the idle-trim, each such
Run contributing that many copies of its level in order. -/
theorem bitvector_length_amended (runs : List (Bool × ℚ)) :
    (build_bitvector runs).1.length
        = expansionSum (estimateT0 runs) (idleTrim (estimateT0 runs) runs) ∧
    (build_bitvector runs).1
        = ((idleTrim (estimateT0 runs) runs).map
            (fun r => List.replicate (pyRound (r.2 / estimateT0 runs)).toNat r.1)).flatten := by
  refine ⟨?_, rfl⟩
  show (((idleTrim (estimateT0 runs) runs).map
      (fun r => List.replicate (pyRound (r.2 / estimateT0 runs)).toNat r.1)).flatten).length = _
  rw [List.length_flatten, List.map_map]
  unfold expansionSum
  congr 1
  simp [Function.comp_def]

/-! ## Run-counting lemmas for the scanner -/

theorem countOnes_lt_length_of_getLast : ∀ l : List Bool,
    l.getLast? = some false → countOnes l < l.length := by
  intro l
  induction l with
  | nil => intro h; simp at h
  | cons c tl ih =>
      intro h
      cases tl with
      | nil =>
          cases c
          · simp [countOnes]
          · simp at h
      | cons d tl' =>
          rw [List.getLast?_cons_cons] at h
          have hlt := ih h
          cases c
          · simp [countOnes]
          · simp only [countOnes, List.length_cons] at hlt ⊢
            omega

theorem countOnes_append_of_lt : ∀ (x y : List Bool),
    countOnes x < x.length → countOnes (x ++ y) = countOnes x := by
  intro x
  induction x with
  | nil => intro y h; simp at h
  | cons c x' ih =>
      intro y h
      cases c
      · simp [countOnes]
      · simp only [List.cons_append, countOnes, List.length_cons] at h ⊢
        show countOnes (x' ++ y) + 1 = countOnes x' + 1
        rw [ih y (by omega)]

theorem countOnes_replicate_append : ∀ (c : Nat) (y : List Bool),
    countOnes (List.replicate c true ++ y) = c + countOnes y := by
  intro c
  induction c with
  | zero => intro y; simp
  | succ c' ih =>
      intro y
      rw [List.replicate_succ, List.cons_append]
      show countOnes (List.replicate c' true ++ y) + 1 = c' + 1 + countOnes y
      rw [ih y]
      omega

theorem noLongRun_cons (m : Nat) (c : Bool) (l : List Bool)
    (h : noLongRun m (c :: l)) : noLongRun m l := by
  intro i hi
  have := h (i + 1) (by simp only [List.length_cons]; omega)
  simpa [List.drop_succ_cons] using this

theorem getLast?_drop : ∀ (l : List Bool) (i : Nat), i < l.length →
    (l.drop i).getLast? = l.getLast? := by
  intro l
  induction l with
  | nil => intro i hi; simp at hi
  | cons c tl ih =>
      intro i hi
      cases i with
      | zero => rfl
      | succ i' =>
          rw [List.drop_succ_cons]
          cases tl with
          | nil => simp at hi
          | cons d tl' =>
              rw [List.getLast?_cons_cons]
              exact ih i' (by simp at hi ⊢; omega)

/-! ## The frame invariant of the scanner -/

theorem goodAcc_single (m : Nat) (hm : 1 ≤ m) : goodAcc m [false] := by
  refine ⟨rfl, rfl, ?_⟩
  intro i hi
  simp only [List.length_singleton] at hi
  interval_cases i
  simpa [countOnes] using hm

theorem goodAcc_extend (m : Nat) (acc : List Bool) (run : Nat)
    (h : goodAcc m acc) (hrun : run < m) :
    goodAcc m (acc ++ List.replicate run true ++ [false]) := by
  obtain ⟨hh, hl, hnr⟩ := h
  have hane : acc ≠ [] := by intro hc; rw [hc] at hh; simp at hh
  refine ⟨?_, ?_, ?_⟩
  · cases acc with
    | nil => exact absurd rfl hane
    | cons a acc' =>
        simp only [List.head?_cons, Option.some.injEq] at hh
        simp [hh]
  · rw [List.append_assoc, ← List.append_assoc]
    exact List.getLast?_concat _
  · intro i hi
    rw [List.append_assoc, List.drop_append_eq_append_drop]
    by_cases hi' : i < acc.length
    · have hd : (acc.drop i).getLast? = some false := by
        rw [getLast?_drop acc i hi']; exact hl
      rw [countOnes_append_of_lt _ _ (countOnes_lt_length_of_getLast _ hd)]
      exact hnr i hi'
    · rw [List.drop_eq_nil_of_le (by omega)]
      simp only [List.nil_append]
      rw [List.drop_append_eq_append_drop]
      simp only [List.length_replicate]
      rw [List.drop_replicate, countOnes_replicate_append]
      have hz : countOnes ([false].drop (i - acc.length - run)) = 0 := by
        rcases hk : i - acc.length - run with _ | k
        · rfl
        · simp [List.drop_succ_cons, List.drop_nil, countOnes]
      rw [hz]
      omega

theorem stateOK_scanning (m : Nat) : stateOK m .scanning := trivial

theorem scan_good (m : Nat) (hm : 1 ≤ m) : ∀ (l : List Bool) (i : Nat) (st : ScanState),
    stateOK m st → ∀ f ∈ (scanLoop m l i st).map (fun x => x.1), goodAcc m f := by
  intro l
  induction l with
  | nil =>
      intro i st hst f hf
      cases st with
      | scanning => simp [scanLoop] at hf
      | frameOpen s acc run =>
          simp only [scanLoop] at hf
          split at hf
          · simp only [List.map_cons, List.map_nil, List.mem_singleton] at hf
            rw [hf]; exact hst
          · simp at hf
  | cons c tl ih =>
      intro i st hst f hf
      cases st with
      | scanning =>
          cases c
          · simp only [scanLoop] at hf
            exact ih (i + 1) (.frameOpen i [false] 0) (goodAcc_single m hm) f hf
          · simp only [scanLoop] at hf
            exact ih (i + 1) .scanning trivial f hf
      | frameOpen s acc run =>
          cases c
          · simp only [scanLoop] at hf
            split at hf
            · simp only [List.map_cons, List.mem_cons] at hf
              rcases hf with hf | hf
              · rw [hf]; exact hst
              · exact ih (i + 1) (.frameOpen i [false] 0) (goodAcc_single m hm) f hf
            · rename_i hcond
              exact ih (i + 1)
                (.frameOpen s (acc ++ List.replicate run true ++ [false]) 0)
                (goodAcc_extend m acc run hst (by omega)) f hf
          · simp only [scanLoop] at hf
            exact ih (i + 1) (.frameOpen s acc (run + 1)) hst f hf

/-- C10: every Frame extracted by the scanner is non-empty, begins with
`'0'`, ends with `'0'`, and contains no run of `min_idle` or more
consecutive `'1'`s — in particular the delimiting idle run is never part
of an extracted Frame. -/
theorem extracted_frames_wf (bitvec : List Bool) (m : Nat) (hm : 1 ≤ m)
    (f : List Bool) (hf : f ∈ framesOf m bitvec) :
    f ≠ [] ∧ f.head? = some false ∧ f.getLast? = some false ∧ noLongRun m f := by
  have hg : goodAcc m f := scan_good m hm bitvec 0 .scanning trivial f hf
  obtain ⟨hh, hl, hnr⟩ := hg
  refine ⟨?_, hh, hl, hnr⟩
  intro hc
  rw [hc] at hh
  simp at hh

/-- Witness for C10 at the bitvector `"00" ++ "1"*20` with `min_idle = 20`. -/
theorem extracted_frames_wf_witness :
    (1 ≤ 20 ∧ [false, false] ∈ framesOf 20 ([false, false] ++ List.replicate 20 true)) ∧
    ([false, false] ≠ [] ∧ ([false, false] : List Bool).head? = some false ∧
      ([false, false] : List Bool).getLast? = some false ∧ noLongRun 20 [false, false]) :=
  ⟨⟨by decide, by decide⟩,
   extracted_frames_wf ([false, false] ++ List.replicate 20 true) 20 (by decide)
     [false, false] (by decide)⟩

/-! ## Walking the scanner through a well-formed block -/

theorem walk_gen (m : Nat) : ∀ (b : List Bool), b.getLast? = some false →
    noLongRun m b →
    ∀ (run : Nat), run + countOnes b < m →
    ∀ (acc : List Bool) (st i : Nat) (l : List Bool),
    scanLoop m (b ++ l) i (.frameOpen st acc run)
      = scanLoop m l (i + b.length) (.frameOpen st (acc ++ List.replicate run true ++ b) 0) := by
  intro b
  induction b with
  | nil => intro hl; simp at hl
  | cons c b' ih =>
      intro hl hnr run hrun acc st i l
      cases c
      · -- leading bit of the block is '0'
        have hcond : ¬(1 ≤ run ∧ m ≤ run) := by
          have hc0 : countOnes (false :: b') = 0 := rfl
          omega
        rw [List.cons_append]
        simp only [scanLoop, if_neg hcond]
        cases b' with
        | nil => simp
        | cons d b'' =>
            have hl' : (d :: b'').getLast? = some false := by
              rw [List.getLast?_cons_cons] at hl; exact hl
            have hnr' : noLongRun m (d :: b'') := noLongRun_cons m false _ hnr
            have hrun' : 0 + countOnes (d :: b'') < m := by
              have h1 := hnr 1 (by simp)
              simpa using h1
            rw [ih hl' hnr' 0 hrun' (acc ++ List.replicate run true ++ [false]) st (i + 1) l]
            have harg : (acc ++ List.replicate run true ++ [false])
                ++ List.replicate 0 true ++ (d :: b'')
                = acc ++ List.replicate run true ++ (false :: d :: b'') := by
              simp
            have hlen : i + 1 + (d :: b'').length = i + (false :: d :: b'').length := by
              simp only [List.length_cons]; omega
            rw [harg, hlen]
      · -- leading bit of the block is '1': it extends the current run
        have hb' : b' ≠ [] := by
          intro hc; rw [hc] at hl; simp at hl
        have hl' : b'.getLast? = some false := by
          cases b' with
          | nil => exact absurd rfl hb'
          | cons d b'' => rw [List.getLast?_cons_cons] at hl; exact hl
        have hnr' : noLongRun m b' := noLongRun_cons m true _ hnr
        have hrun' : run + 1 + countOnes b' < m := by
          have hc1 : countOnes (true :: b') = countOnes b' + 1 := rfl
          omega
        rw [List.cons_append]
        simp only [scanLoop]
        rw [ih hl' hnr' (run + 1) hrun' acc st (i + 1) l]
        have harg : acc ++ List.replicate (run + 1) true ++ b'
            = acc ++ List.replicate run true ++ (true :: b') := by
          rw [List.replicate_succ']
          simp
        have hlen : i + 1 + b'.length = i + (true :: b').length := by
          simp only [List.length_cons]; omega
        rw [harg, hlen]

theorem walk_btail (m : Nat) (btail : List Bool)
    (hbt : btail = [] ∨ (btail.getLast? = some false ∧ noLongRun m btail))
    (acc : List Bool) (st i : Nat) (l : List Bool) :
    scanLoop m (btail ++ l) i (.frameOpen st acc 0)
      = scanLoop m l (i + btail.length) (.frameOpen st (acc ++ btail) 0) := by
  rcases hbt with rfl | ⟨hlast, hnr⟩
  · simp
  · have hne : btail ≠ [] := by intro hc; rw [hc] at hlast; simp at hlast
    have hco : 0 + countOnes btail < m := by
      have h0 := hnr 0 (by cases btail with
        | nil => exact absurd rfl hne
        | cons => simp)
      simpa using h0
    have h := walk_gen m btail hlast hnr 0 hco acc st i l
    simpa using h

theorem ones_advance (m : Nat) : ∀ (s : Nat) (l : List Bool) (i st run : Nat) (acc : List Bool),
    scanLoop m (List.replicate s true ++ l) i (.frameOpen st acc run)
      = scanLoop m l (i + s) (.frameOpen st acc (run + s)) := by
  intro s
  induction s with
  | zero => intro l i st run acc; simp
  | succ s' ih =>
      intro l i st run acc
      rw [List.replicate_succ, List.cons_append]
      simp only [scanLoop]
      rw [ih l (i + 1) st (run + 1) acc]
      have h1 : i + 1 + s' = i + (s' + 1) := by omega
      have h2 : run + 1 + s' = run + (s' + 1) := by omega
      rw [h1, h2]

/-! ## Scanning a tiled trace -/

theorem tile_trail (m : Nat) (hm : 1 ≤ m) : ∀ (bs : List (List Bool × Nat)),
    (∀ p ∈ bs, goodBlock m p.1 ∧ m ≤ p.2) →
    ∀ (btail : List Bool),
    (btail = [] ∨ (btail.getLast? = some false ∧ noLongRun m btail)) →
    ∀ (s : Nat), m ≤ s → ∀ (acc : List Bool) (st i : Nat),
    (scanLoop m (btail ++ (List.replicate s true ++ tileBlocks bs)) i
        (.frameOpen st acc 0)).map (fun x => x.1)
      = (acc ++ btail) :: bs.map (fun p => p.1) := by
  intro bs
  induction bs with
  | nil =>
      intro _ btail hbt s hs acc st i
      rw [walk_btail m btail hbt acc st i]
      rw [show tileBlocks [] = [] from rfl]
      rw [ones_advance m s [] (i + btail.length) st 0 (acc ++ btail)]
      have hcond : 1 ≤ 0 + s ∧ m ≤ 0 + s := by omega
      simp only [scanLoop, if_pos hcond]
      simp
  | cons p bs' ih =>
      obtain ⟨b2, s2⟩ := p
      intro hgood btail hbt s hs acc st i
      have hgb2 : goodBlock m b2 ∧ m ≤ s2 := hgood (b2, s2) (by simp)
      obtain ⟨hh2, hl2, hnr2⟩ := hgb2.1
      obtain ⟨c2h, b2t, rfl⟩ : ∃ c b2t, b2 = c :: b2t := by
        cases b2 with
        | nil => simp at hh2
        | cons c b2t => exact ⟨c, b2t, rfl⟩
      have hc2 : c2h = false := by simpa using hh2
      subst hc2
      rw [walk_btail m btail hbt acc st i]
      rw [show tileBlocks ((false :: b2t, s2) :: bs')
            = (false :: b2t) ++ List.replicate s2 true ++ tileBlocks bs' from rfl]
      rw [ones_advance m s _ (i + btail.length) st 0 (acc ++ btail)]
      have hcond : 1 ≤ 0 + s ∧ m ≤ 0 + s := by omega
      rw [show ((false :: b2t) ++ List.replicate s2 true ++ tileBlocks bs')
            = false :: (b2t ++ (List.replicate s2 true ++ tileBlocks bs')) by simp]
      simp only [scanLoop, if_pos hcond]
      rw [List.map_cons]
      congr 1
      have hbt2 : b2t = [] ∨ (b2t.getLast? = some false ∧ noLongRun m b2t) := by
        cases b2t with
        | nil => exact Or.inl rfl
        | cons d b2t' =>
            refine Or.inr ⟨?_, noLongRun_cons m false _ hnr2⟩
            rw [List.getLast?_cons_cons] at hl2; exact hl2
      have := ih (fun q hq => hgood q (List.mem_cons_of_mem _ hq)) b2t hbt2 s2 hgb2.2
        [false] (i + btail.length + s) (i + btail.length + s + 1)
      rw [this]
      simp

theorem tile_scan (m : Nat) (hm : 1 ≤ m) (bs : List (List Bool × Nat))
    (h : ∀ p ∈ bs, goodBlock m p.1 ∧ m ≤ p.2) :
    framesOf m (tileBlocks bs) = bs.map (fun p => p.1) := by
  cases bs with
  | nil => rfl
  | cons p bs' =>
      obtain ⟨b, s⟩ := p
      have hgb : goodBlock m b ∧ m ≤ s := h (b, s) (by simp)
      obtain ⟨hh, hl, hnr⟩ := hgb.1
      obtain ⟨ch, bt, rfl⟩ : ∃ c bt, b = c :: bt := by
        cases b with
        | nil => simp at hh
        | cons c bt => exact ⟨c, bt, rfl⟩
      have hc : ch = false := by simpa using hh
      subst hc
      unfold framesOf extractScan
      rw [show tileBlocks ((false :: bt, s) :: bs')
            = false :: (bt ++ (List.replicate s true ++ tileBlocks bs')) by
          simp [tileBlocks]]
      simp only [scanLoop]
      have hbt : bt = [] ∨ (bt.getLast? = some false ∧ noLongRun m bt) := by
        cases bt with
        | nil => exact Or.inl rfl
        | cons d bt' =>
            refine Or.inr ⟨?_, noLongRun_cons m false _ hnr⟩
            rw [List.getLast?_cons_cons] at hl; exact hl
      have := tile_trail m hm bs' (fun q hq => h q (List.mem_cons_of_mem _ hq)) bt hbt s
        hgb.2 [false] 0 1
      rw [this]
      simp

/-! ## The synthetic round-trip -/

/-- C1x: the round-trip claim fails for an arbitrary bit pattern: tiling
the 30-bit all-ones pattern 5 times with idle separators of length 20
merges everything into one idle run, and decoding raises the
no-frames error instead of returning the pattern 5 times. -/
theorem roundtrip_counterexample :
    extract_and_verify (tileBlocks (List.replicate 5 (List.replicate 30 true, 20))) 20
      = .error .noFrames ∧
    (∀ ps, extract_and_verify (tileBlocks (List.replicate 5 (List.replicate 30 true, 20))) 20
      ≠ .ok (List.replicate 30 true, 5, ps)) := by
  have h0 : extract_and_verify (tileBlocks (List.replicate 5 (List.replicate 30 true, 20))) 20
      = .error .noFrames := by decide
  refine ⟨h0, ?_⟩
  intro ps hc
  rw [h0] at hc
  exact Except.noConfusion hc

/-- C1 (amended): the round-trip holds for every pattern that starts with
`'0'`, ends with `'0'`, and contains no internal run of `min_idle` or more
`'1'`s: tiling it `k ≥ 5` times, each copy followed by an idle separator
of length `≥ min_idle`, decodes to exactly that pattern with
occurrence count `k`. -/
theorem roundtrip_amended (p : List Bool) (seps : List Nat) (m k : Nat)
    (hm : 1 ≤ m) (hgb : goodBlock m p)
    (hN : 30 ≤ p.length) (hN' : p.length ≤ 34)
    (hk : seps.length = k) (hk5 : 5 ≤ k) (hseps : ∀ s ∈ seps, m ≤ s) :
    ∃ ps, extract_and_verify (tileBlocks (seps.map (fun s => (p, s)))) m
      = .ok (p, k, ps) := by
  have hgood : ∀ q ∈ seps.map (fun s => (p, s)), goodBlock m q.1 ∧ m ≤ q.2 := by
    intro q hq
    obtain ⟨s, hs', rfl⟩ := List.mem_map.1 hq
    exact ⟨hgb, hseps s hs'⟩
  have hframes : framesOf m (tileBlocks (seps.map (fun s => (p, s))))
      = seps.map (fun _ => p) := by
    rw [tile_scan m hm _ hgood, List.map_map]
    rfl
  obtain ⟨s0, seps', rfl⟩ : ∃ a l', seps = a :: l' := by
    cases seps with
    | nil => rw [List.length_nil] at hk; omega
    | cons a l' => exact ⟨a, l', rfl⟩
  have hframes' : framesOf m (tileBlocks (((s0 :: seps').map (fun s => (p, s)))))
      = p :: seps'.map (fun _ => p) := by
    rw [hframes, List.map_cons]
  refine ⟨positionsOf m (tileBlocks (((s0 :: seps').map (fun s => (p, s))))), ?_⟩
  unfold extract_and_verify
  rw [hframes']
  have hfil : (seps'.map (fun _ => p)).filter (fun f => decide (f ≠ p)) = [] := by
    rw [List.filter_eq_nil_iff]
    intro a ha
    obtain ⟨s, _, rfl⟩ := List.mem_map.1 ha
    simp
  simp only [hfil, List.length_nil, Nat.lt_irrefl, if_false, List.length_cons,
    List.length_map, Nat.sub_zero]
  have hlen : seps'.length + 1 = k := by
    rw [List.length_cons] at hk
    omega
  rw [hlen]

/-- Witness for C1 (amended) at the 30-bit pattern `"01"*14 ++ "00"`,
5 separators of length 20, `min_idle = 20`. -/
theorem roundtrip_amended_witness :
    ∃ ps, extract_and_verify (tileBlocks ((List.replicate 5 20).map (fun s => (p30, s)))) 20
      = .ok (p30, 5, ps) :=
  roundtrip_amended p30 (List.replicate 5 20) 20 5 (by decide) (by decide)
    (by decide) (by decide) (by decide) (by decide) (by decide)

/-! ## Flipping one bit of a block -/

theorem getElem?_set_false : ∀ (l : List Bool) (j : Nat),
    l[j]? = some true → (l.set j false)[j]? = some false := by
  intro l
  induction l with
  | nil => intro j h; simp at h
  | cons c tl ih =>
      intro j h
      cases j with
      | zero => simp
      | succ j' =>
          rw [List.set_cons_succ, List.getElem?_cons_succ]
          exact ih j' (by simpa using h)

theorem head?_set_succ (l : List Bool) (j : Nat) (b : Bool) :
    (l.set (j + 1) b).head? = l.head? := by
  cases l with
  | nil => rfl
  | cons c tl => rw [List.set_cons_succ]; rfl

theorem countOnes_set_false_le : ∀ (l : List Bool) (j : Nat),
    countOnes (l.set j false) ≤ countOnes l := by
  intro l
  induction l with
  | nil => intro j; exact le_refl _
  | cons c tl ih =>
      intro j
      cases j with
      | zero => rw [List.set_cons_zero]; cases c <;> simp [countOnes]
      | succ j' =>
          rw [List.set_cons_succ]
          cases c
          · simp [countOnes]
          · simp only [countOnes]
            exact Nat.add_le_add_right (ih j') 1

theorem countOnes_drop_set_false_le : ∀ (l : List Bool) (j i : Nat),
    countOnes ((l.set j false).drop i) ≤ countOnes (l.drop i) := by
  intro l
  induction l with
  | nil => intro j i; exact le_refl _
  | cons c tl ih =>
      intro j i
      cases i with
      | zero => simpa using countOnes_set_false_le (c :: tl) j
      | succ i' =>
          cases j with
          | zero =>
              rw [List.set_cons_zero, List.drop_succ_cons, List.drop_succ_cons]
          | succ j' =>
              rw [List.set_cons_succ, List.drop_succ_cons, List.drop_succ_cons]
              exact ih j' i'

theorem noLongRun_set_false (m : Nat) (l : List Bool) (j : Nat)
    (h : noLongRun m l) : noLongRun m (l.set j false) := by
  intro i hi
  rw [List.length_set] at hi
  exact lt_of_le_of_lt (countOnes_drop_set_false_le l j i) (h i hi)

theorem goodBlock_set_false (m : Nat) (p : List Bool) (j : Nat)
    (hgb : goodBlock m p) (hj : p[j]? = some true) : goodBlock m (p.set j false) := by
  obtain ⟨hh, hl, hnr⟩ := hgb
  have hj0 : j ≠ 0 := by
    intro hc
    subst hc
    cases p with
    | nil => simp at hj
    | cons c tl =>
        simp only [List.head?_cons, Option.some.injEq] at hh
        simp only [List.getElem?_cons_zero, Option.some.injEq] at hj
        rw [hh] at hj
        exact Bool.noConfusion hj
  refine ⟨?_, ?_, noLongRun_set_false m p j hnr⟩
  · obtain ⟨j', rfl⟩ := Nat.exists_eq_succ_of_ne_zero hj0
    rw [head?_set_succ]
    exact hh
  · have hjne : j ≠ p.length - 1 := by
      intro hc
      rw [List.getLast?_eq_getElem?, ← hc, hj] at hl
      exact Bool.noConfusion (Option.some.inj hl)
    rw [List.getLast?_eq_getElem?, List.length_set, List.getElem?_set_ne hjne,
      ← List.getLast?_eq_getElem?]
    exact hl

theorem set_false_ne (p : List Bool) (j : Nat) (hj : p[j]? = some true) :
    p.set j false ≠ p := by
  intro hc
  have h2 := getElem?_set_false p j hj
  rw [hc, hj] at h2
  exact Bool.noConfusion (Option.some.inj h2)

theorem filter_replicate_ne (p : List Bool) : ∀ n : Nat,
    (List.replicate n p).filter (fun f => decide (f ≠ p)) = [] := by
  intro n
  induction n with
  | zero => rfl
  | succ n' ih => rw [List.replicate_succ, List.filter_cons]; simp [ih]

theorem filter_set_replicate (p q : List Bool) (hq : q ≠ p) : ∀ (n j : Nat), j < n →
    ((List.replicate n p).set j q).filter (fun f => decide (f ≠ p)) = [q] := by
  intro n
  induction n with
  | zero => intro j hj; exact absurd hj (by omega)
  | succ n' ih =>
      intro j hj
      rw [List.replicate_succ]
      cases j with
      | zero =>
          rw [List.set_cons_zero, List.filter_cons]
          simp [hq, filter_replicate_ne]
      | succ j' =>
          rw [List.set_cons_succ, List.filter_cons, if_neg (by simp)]
          exact ih j' (by omega)

/-! ## Mismatch detection -/

/-- C4x: the mismatch claim fails when the flipped repetition is the
first one: in a trace of 3 repetitions of `p30` with one bit of the first
repetition flipped, the unreliable-capture error carries mismatch count 2,
not 1 (the other two repetitions both differ from the first frame). -/
theorem mismatch_counterexample :
    unreliableCount (extract_and_verify
        (tileBlocks [(p30.set 1 false, 20), (p30, 20), (p30, 20)]) 20) = some 2 ∧
    unreliableCount (extract_and_verify
        (tileBlocks [(p30.set 1 false, 20), (p30, 20), (p30, 20)]) 20) ≠ some 1 := by
  constructor
  · decide
  · decide

/-- C4 (amended): for a well-formed pattern tiled `k` times with idle
separators, where exactly one repetition other than the first has a single
`'1'`-bit flipped to `'0'`, extraction raises the unreliable-capture error
with mismatch count exactly 1, carrying the Diagnostic Aligner's output
computed before the error propagates. -/
theorem mismatch_amended (p : List Bool) (j : Nat) (seps : List Nat) (m t k : Nat)
    (hm : 1 ≤ m) (hgb : goodBlock m p) (hj : p[j]? = some true)
    (ht : 1 ≤ t) (htk : t < k) (hsl : seps.length = k) (hseps : ∀ s ∈ seps, m ≤ s) :
    ∃ ps, extract_and_verify
        (tileBlocks (((List.replicate k p).set t (p.set j false)).zip seps)) m
      = .error (.unreliable 1 (alignerLines p
          (tileBlocks (((List.replicate k p).set t (p.set j false)).zip seps)) ps)) := by
  have hqgb : goodBlock m (p.set j false) := goodBlock_set_false m p j hgb hj
  have hqne : p.set j false ≠ p := set_false_ne p j hj
  have hblen : ((List.replicate k p).set t (p.set j false)).length = k := by
    rw [List.length_set, List.length_replicate]
  have hgood : ∀ r ∈ ((List.replicate k p).set t (p.set j false)).zip seps,
      goodBlock m r.1 ∧ m ≤ r.2 := by
    intro r hr
    have h1 := List.of_mem_zip hr
    constructor
    · rcases List.mem_or_eq_of_mem_set h1.1 with hmem | heq
      · rw [List.eq_of_mem_replicate hmem]; exact hgb
      · rw [heq]; exact hqgb
    · exact hseps r.2 h1.2
  have hframes : framesOf m (tileBlocks (((List.replicate k p).set t (p.set j false)).zip seps))
      = (List.replicate k p).set t (p.set j false) := by
    rw [tile_scan m hm _ hgood]
    simpa using List.map_fst_zip ((List.replicate k p).set t (p.set j false)) seps
      (by rw [hblen, hsl])
  obtain ⟨k', rfl⟩ : ∃ k', k = k' + 1 := ⟨k - 1, by omega⟩
  obtain ⟨t', rfl⟩ : ∃ t', t = t' + 1 := ⟨t - 1, by omega⟩
  have hfr' : framesOf m (tileBlocks (((List.replicate (k' + 1) p).set (t' + 1)
        (p.set j false)).zip seps))
      = p :: ((List.replicate k' p).set t' (p.set j false)) := by
    rw [hframes, List.replicate_succ, List.set_cons_succ]
  refine ⟨positionsOf m (tileBlocks (((List.replicate (k' + 1) p).set (t' + 1)
    (p.set j false)).zip seps)), ?_⟩
  unfold extract_and_verify
  rw [hfr']
  have hfil : ((List.replicate k' p).set t' (p.set j false)).filter
      (fun f => decide (f ≠ p)) = [p.set j false] :=
    filter_set_replicate p (p.set j false) hqne k' t' (by omega)
  simp only [hfil, List.length_singleton, Nat.zero_lt_one, if_true]

/-- Witness for C4 (amended): `p30` tiled 5 times, bit 1 of the second
repetition flipped, separators of length 20. -/
theorem mismatch_amended_witness :
    ∃ ps, extract_and_verify
        (tileBlocks (((List.replicate 5 p30).set 1 (p30.set 1 false)).zip
          (List.replicate 5 20))) 20
      = .error (.unreliable 1 (alignerLines p30
          (tileBlocks (((List.replicate 5 p30).set 1 (p30.set 1 false)).zip
            (List.replicate 5 20))) ps)) :=
  mismatch_amended p30 1 (List.replicate 5 20) 20 1 5 (by decide) (by decide)
    (by decide) (by decide) (by decide) (by decide) (by decide)

/-! ## The concrete scenario -/

/-- C2x: on the concrete scenario runs the pipeline does not estimate
`T0 = 0.5 ms`: the shortest level-0 run lasts 1 ms, so `T0 = 1 ms`. -/
theorem scenario_counterexample :
    estimateT0 c2runs = 1 ∧ estimateT0 c2runs ≠ 1 / 2 := by
  have h1 : estimateT0 c2runs = 1 := by with_unfolding_all rfl
  refine ⟨h1, ?_⟩
  rw [h1]
  norm_num

/-- C2 (amended): on the concrete scenario runs the pipeline estimates
`T0 = 1 ms`, trims through the first 25 ms idle run, builds the bitvector
`("00" ++ "1"*25) * 5` (the 0.5 ms pulses round to zero bits), extracts
5 frames `"00"` with occurrence count 5, and the post-check fails the
2-bit frame as too short. -/
theorem scenario_amended :
    estimateT0 c2runs = 1 ∧
    (build_bitvector c2runs).1 = tileBlocks (List.replicate 5 ([false, false], 25)) ∧
    extract_and_verify (build_bitvector c2runs).1 20
      = .ok ([false, false], 5, [(0, 2), (27, 29), (54, 56), (81, 83), (108, 110)]) ∧
    lengthCheck [false, false] = .error (.frameLength true 2) :=
  ⟨by with_unfolding_all rfl, by with_unfolding_all rfl,
   by with_unfolding_all rfl, rfl⟩

/-! ## Error isolation in the main loop -/

/-- C5: the per-trace error isolation breaks: a first trace that fails
extraction (here a 3-sample trace whose bitvector is `"01"`, raising the
no-frames error) makes the `except` handler read the unbound variable
`frame`, so the whole run aborts with a `NameError` instead of recording
the error and continuing; an empty trace likewise aborts with an
`IndexError` raised outside the `try` block. -/
theorem error_isolation_code_bug :
    mainLoop 20 [[((0 : ℚ), false), (1, true), (2, true)]] 0 none [] = .error .nameError ∧
    mainLoop 20 [[]] 0 none [] = .error .indexError :=
  ⟨by with_unfolding_all rfl, rfl⟩
